import Mathlib

/-!
Verification of the mysqltsv streaming TSV encoder (src/mysqltsv.go):
the byte-level field escaper, the NULL marker, the row-framing state
machine, error latching, Close semantics and the value-to-bytes
conversion rules.

Bytes are modelled as natural numbers and byte sequences as lists of
naturals; a Go `[]byte` that may be nil is `Option Bytes` with `none`
for the nil slice.  The buffered output sink (an external collaborator,
`bufio.Writer` over an `io.Writer`) is modelled at its interface
boundary: a list of accepted bytes plus a schedule of write outcomes,
where an empty schedule means every write succeeds.
-/

/-- A byte sequence; each element is a byte value. -/
abbrev Bytes := List Nat

/-- Errors observable from the encoder: a failure of the underlying
sink (write or flush), or a conversion failure such as the
`fmt.Errorf` produced for an unsupported type. -/
inductive GoError where
  | sinkError : GoError
  | conversionError : String → GoError
  deriving DecidableEq, Repr

/-- The per-byte escape table of the `switch` inside `escapeField`
(src/mysqltsv.go lines 132-153): NUL, backspace, newline, carriage
return, tab, SUB (0x1A), backslash and double quote each become a
two-byte backslash pair; every other byte is emitted verbatim. -/
def escByte (c : Nat) : List Nat :=
  if c = 0 then [92, 48]
  else if c = 8 then [92, 98]
  else if c = 10 then [92, 110]
  else if c = 13 then [92, 114]
  else if c = 9 then [92, 116]
  else if c = 26 then [92, 90]
  else if c = 92 then [92, 92]
  else if c = 34 then [92, 34]
  else [c]

/-- `escapeField` (src/mysqltsv.go lines 124-156).  A nil `data` yields
the two-byte NULL marker backslash-N, discarding `appendTo` exactly as
the Go code does.  Otherwise the field is appended to `appendTo` as a
leading quote, each data byte mapped through the escape table, and a
trailing quote.  (The Go capacity check only reallocates the backing
array and does not change the produced bytes.) -/
def escapeField (appendTo : List Nat) (data : Option Bytes) : List Nat :=
  match data with
  | none => [92, 78]
  | some d => (d.foldl (fun acc c => acc ++ escByte c) (appendTo ++ [34])) ++ [34]

/-- Modelled from the spec: the single-character decoding used by the
paired format reader ("under the documented reader semantics of the paired format
semantics", spec section 8).  No decoder exists in this repository, so
the reader is modelled from the escape table of the spec read backwards:
after a backslash, the characters 0 b n r t Z denote NUL, backspace,
newline, carriage return, tab and SUB, and any other escaped character
denotes itself (covering backslash and quote). -/
def unescChar (x : Nat) : Nat :=
  if x = 48 then 0
  else if x = 98 then 8
  else if x = 110 then 10
  else if x = 114 then 13
  else if x = 116 then 9
  else if x = 90 then 26
  else x

/-- Modelled from the spec: the scan a reader makes of a quoted field body.
A backslash consumes the following character and decodes it through
`unescChar`; every other byte stands for itself.  A trailing lone
backslash (which the escaper never produces) decodes to nothing. -/
def unescBody : List Nat → List Nat
  | [] => []
  | c :: rest =>
    if c = 92 then
      match rest with
      | [] => []
      | x :: rest2 => unescChar x :: unescBody rest2
    else c :: unescBody rest

/-- Modelled from the spec: the decoding a paired format reader makes of one
escaped field.  The exact two bytes backslash-N denote NULL; otherwise
the field must be enclosed in double quotes and its body is decoded by
`unescBody`; anything else is a malformed field. -/
def unescapeField (f : List Nat) : Except String (Option Bytes) :=
  if f = [92, 78] then .ok none
  else
    match f with
    | [] => .error "field is not quoted"
    | c :: rest =>
        if c = 34 then
          match rest.getLast? with
          | none => .error "unterminated quoted field"
          | some x =>
              if x = 34 then .ok (some (unescBody rest.dropLast))
              else .error "unterminated quoted field"
        else .error "field is not quoted"

/-- ASCII digits of a positive number, most significant first; the
fuel argument bounds the recursion depth (one digit per step). -/
def natDecAux : Nat → Nat → List Nat
  | 0, _ => []
  | _ + 1, 0 => []
  | fuel + 1, n + 1 => natDecAux fuel ((n + 1) / 10) ++ [48 + (n + 1) % 10]

/-- Base-10 ASCII digits of a natural number, as produced by
`strconv.FormatUint(v, 10)`: no leading zeros, no leading plus. -/
def natDecimal (n : Nat) : List Nat :=
  if n = 0 then [48] else natDecAux n n

/-- Base-10 ASCII digits of an integer, as produced by
`strconv.FormatInt(v, 10)`: a single leading minus sign for negative
values, no leading zeros. -/
def intDecimal (i : Int) : List Nat :=
  if i < 0 then 45 :: natDecimal (-i).toNat else natDecimal i.toNat

/-- Encoder settings (src/mysqltsv.go `EncoderOptions`): the optional
time zone each `time.Time` is converted into before serialization.  A
location is modelled by its fixed offset in seconds east of UTC
(`time.FixedZone`); the Go pointer field being nil is `none`. -/
structure EncoderOptions where
  Location : Option Int
  deriving DecidableEq, Repr

/-- A Go `time.Time`: an absolute instant (whole seconds since the Unix
epoch plus a nanosecond part below one second) together with the offset
of the zone it currently carries.  Wall-clock fields are derived from
`unixSec + offset`. -/
structure GoTime where
  unixSec : Int
  nsec : Nat
  offset : Int
  deriving DecidableEq, Repr

/-- `time.Time.In`: the same instant carried in a zone with the given
fixed offset. -/
def GoTime.inZone (t : GoTime) (off : Int) : GoTime :=
  { t with offset := off }

/-- Wall-clock seconds of the instant in its current zone. -/
def GoTime.wallSec (t : GoTime) : Int :=
  t.unixSec + t.offset

/-- `time.Time.Clock`: hour, minute and second of the day, computed
from the wall-clock seconds (Go reduces the absolute seconds modulo
86400 in unsigned arithmetic, which Euclidean mod reproduces). -/
def GoTime.clock (t : GoTime) : Nat × Nat × Nat :=
  let sod := (Int.emod t.wallSec 86400).toNat
  (sod / 3600, sod % 3600 / 60, sod % 60)

/-- Days since 1970-01-01 of the wall clock (floor division). -/
def GoTime.wallDays (t : GoTime) : Int :=
  Int.ediv t.wallSec 86400

/-- Proleptic-Gregorian year, month and day from a count of days since
1970-01-01; the standard civil-from-days computation, agreeing with
the internal `absDate` of Go. -/
def civilFromDays (z0 : Int) : Int × Int × Int :=
  let z := z0 + 719468
  let era := Int.ediv z 146097
  let doe := z - era * 146097
  let yoe := Int.ediv (doe - Int.ediv doe 1460 + Int.ediv doe 36524 - Int.ediv doe 146096) 365
  let y := yoe + era * 400
  let doy := doe - (365 * yoe + Int.ediv yoe 4 - Int.ediv yoe 100)
  let mp := Int.ediv (5 * doy + 2) 153
  let d := doy - Int.ediv (153 * mp + 2) 5 + 1
  let m := if mp < 10 then mp + 3 else mp - 9
  (if m ≤ 2 then y + 1 else y, m, d)

/-- Digits of `n` left-padded with ASCII zeros to width `w` (wider
numbers keep all their digits), as the zero-padded layout fields of Go. -/
def padNat (w : Nat) (n : Nat) : List Nat :=
  let d := natDecimal n
  List.replicate (w - d.length) 48 ++ d

/-- A zero-padded integer field of minimum width `w` with a leading
minus sign for negative values (`appendInt` in Go). -/
def padInt (w : Nat) (i : Int) : List Nat :=
  if i < 0 then 45 :: padNat w (-i).toNat else padNat w i.toNat

/-- `Format("2006-01-02")`: the date of the wall clock as
YYYY-MM-DD. -/
def fmtDate (t : GoTime) : List Nat :=
  let ymd := civilFromDays t.wallDays
  padInt 4 ymd.1 ++ 45 :: padInt 2 ymd.2.1 ++ 45 :: padInt 2 ymd.2.2

/-- `Format("2006-01-02 15:04:05")`: date, a space, and the zero-padded
24-hour clock. -/
def fmtDateTime (t : GoTime) : List Nat :=
  let hms := t.clock
  fmtDate t ++ 32 :: padNat 2 hms.1 ++ 58 :: padNat 2 hms.2.1 ++ 58 :: padNat 2 hms.2.2

/-- Trailing ASCII zeros removed, as the trailing-zero trimming of the
"9"-style fractional layout. -/
def dropTrailingZeros (l : List Nat) : List Nat :=
  (l.reverse.dropWhile (fun d => d == 48)).reverse

/-- The fractional-second suffix of `Format("... .999999999")`: the
nanosecond value printed as nine zero-padded digits, trailing zeros
trimmed, preceded by a dot; entirely absent when every digit is
trimmed. -/
def fmtFrac (nsec : Nat) : List Nat :=
  let t := dropTrailingZeros (padNat 9 nsec)
  if t = [] then [] else 46 :: t

/-- The `time.Time` case of `valueToBytes` (src/mysqltsv.go lines
200-212): convert into the configured zone when one is set, then pick
the layout from the converted wall-clock fields. -/
def timeBytes (cfg : Option EncoderOptions) (t : GoTime) : List Nat :=
  let v := match cfg with
    | some c => match c.Location with
        | some off => t.inZone off
        | none => t
    | none => t
  let hms := v.clock
  if hms.1 = 0 ∧ hms.2.1 = 0 ∧ hms.2.2 = 0 ∧ v.nsec = 0 then fmtDate v
  else if v.nsec = 0 then fmtDateTime v
  else fmtDateTime v ++ fmtFrac v.nsec

/-- The zone conversion applied by the `time.Time` case before any
wall-clock field is inspected. -/
def applyLocation (cfg : Option EncoderOptions) (t : GoTime) : GoTime :=
  match cfg with
  | some c => match c.Location with
      | some off => t.inZone off
      | none => t
  | none => t

/-- The dynamic values an `any` argument of `AppendValue` can carry,
one constructor per type the `switch` in `valueToBytes` names, plus a
`driver.Valuer` (whose `Value()` call yields either a value or an
error) and a catch-all for every other type, carrying the name `%T`
would print. -/
inductive GoValue where
  | str : Bytes → GoValue
  | bytes : Option Bytes → GoValue
  | jsonRawMessage : Option Bytes → GoValue
  | u8 : Nat → GoValue
  | i8 : Int → GoValue
  | u16 : Nat → GoValue
  | i16 : Int → GoValue
  | u32 : Nat → GoValue
  | i32 : Int → GoValue
  | u64 : Nat → GoValue
  | i64 : Int → GoValue
  | int : Int → GoValue
  | uint : Nat → GoValue
  | goNil : GoValue
  | boolean : Bool → GoValue
  | time : GoTime → GoValue
  | valuerOk : GoValue → GoValue
  | valuerErr : GoError → GoValue
  | unsupported : String → GoValue
  deriving DecidableEq, Repr

/-- The name `fmt.Errorf` ("cannot encode type %T to TSV") prints for
a value reaching the default case. -/
def GoValue.typeName : GoValue → String
  | .unsupported n => n
  | .valuerOk _ => "driver.Valuer"
  | .valuerErr _ => "driver.Valuer"
  | _ => "builtin"

/-- The type switch of `valueToBytes` (src/mysqltsv.go lines 166-215):
strings and byte slices pass through (a nil slice stays nil), integers
become base-10 digits, nil becomes the absent value, booleans become
"1"/"0", times are formatted by `timeBytes`, and every other type —
including a `driver.Valuer`, which the switch does not name — falls to
the default error case. -/
def typeSwitch (cfg : Option EncoderOptions) : GoValue → Except GoError (Option Bytes)
  | .str s => .ok (some s)
  | .bytes b => .ok b
  | .jsonRawMessage b => .ok b
  | .u8 n => .ok (some (natDecimal n))
  | .i8 n => .ok (some (intDecimal n))
  | .u16 n => .ok (some (natDecimal n))
  | .i16 n => .ok (some (intDecimal n))
  | .u32 n => .ok (some (natDecimal n))
  | .i32 n => .ok (some (intDecimal n))
  | .u64 n => .ok (some (natDecimal n))
  | .i64 n => .ok (some (intDecimal n))
  | .int n => .ok (some (intDecimal n))
  | .uint n => .ok (some (natDecimal n))
  | .goNil => .ok none
  | .boolean b => .ok (some (if b then [49] else [48]))
  | .time t => .ok (some (timeBytes cfg t))
  | v => .error (.conversionError v.typeName)

/-- `valueToBytes` (src/mysqltsv.go lines 158-216): a `driver.Valuer`
is invoked first — a failure is returned as the conversion error, a
success re-dispatches its result through the type switch (which itself
treats a nested Valuer as unsupported) — and every other value goes
straight to the switch. -/
def valueToBytes (v : GoValue) (cfg : Option EncoderOptions) : Except GoError (Option Bytes) :=
  match v with
  | .valuerErr e => .error e
  | .valuerOk inner => typeSwitch cfg inner
  | v => typeSwitch cfg v

/-- `EscapeValue` (src/mysqltsv.go lines 220-226): one-shot conversion
plus escaping of a single value. -/
def EscapeValue (v : GoValue) (cfg : Option EncoderOptions) : Except GoError (List Nat) :=
  match valueToBytes v cfg with
  | .error e => .error e
  | .ok b => .ok (escapeField [] b)

/-- The buffered output sink (`bufio.Writer` over the caller-provided
`io.Writer`), modelled at its interface boundary: `buffered` holds the
bytes accepted but not yet flushed, `flushed` the bytes pushed to the
underlying writer, and `failures` a schedule of outcomes, one entry
consumed per write or flush call, an exhausted schedule meaning
success. -/
structure BufWriter where
  buffered : List Nat
  flushed : List Nat
  failures : List Bool
  deriving DecidableEq, Repr

/-- Consume the next scheduled outcome (`true` = the sink fails). -/
def popFail (w : BufWriter) : Bool × BufWriter :=
  match w.failures with
  | [] => (false, w)
  | f :: rest => (f, { w with failures := rest })

/-- `Write`: on success the bytes are appended to the buffer; on
failure nothing is accepted and the sink reports an error. -/
def bwWrite (w : BufWriter) (bs : List Nat) : BufWriter × Option GoError :=
  let fw := popFail w
  if fw.1 then (fw.2, some .sinkError)
  else ({ fw.2 with buffered := fw.2.buffered ++ bs }, none)

/-- `WriteByte`: a one-byte write. -/
def bwWriteByte (w : BufWriter) (b : Nat) : BufWriter × Option GoError :=
  let fw := popFail w
  if fw.1 then (fw.2, some .sinkError)
  else ({ fw.2 with buffered := fw.2.buffered ++ [b] }, none)

/-- `Flush`: on success the buffered bytes move to the underlying
writer; on failure they are retained and an error is reported. -/
def bwFlush (w : BufWriter) : BufWriter × Option GoError :=
  let fw := popFail w
  if fw.1 then (fw.2, some .sinkError)
  else ({ fw.2 with buffered := [], flushed := fw.2.flushed ++ fw.2.buffered }, none)

/-- The encoder state (src/mysqltsv.go lines 51-57): the buffered
writer, the immutable columns-per-row, the columns left in the current
row, the latched error and the optional configuration. -/
structure Encoder where
  w : BufWriter
  numColumnsPerRow : Int
  colsLeftInRow : Int
  err : Option GoError
  encoderOptions : Option EncoderOptions
  deriving DecidableEq, Repr

/-- `NewEncoder` (src/mysqltsv.go lines 62-69) over a fresh sink whose
write outcomes follow `failures`. -/
def NewEncoder (failures : List Bool) (numColumns : Int) (cfg : Option EncoderOptions) : Encoder :=
  { w := { buffered := [], flushed := [], failures := failures }
    numColumnsPerRow := numColumns
    colsLeftInRow := numColumns
    err := none
    encoderOptions := cfg }

/-- `AvailableBuffer` returns an empty slice (whose spare capacity only
avoids allocation). -/
def availBuf (_ : BufWriter) : List Nat := []

/-- `Encoder.writeField` (src/mysqltsv.go lines 71-84): write the
escaped field, latching any write error; on success decrement the
column counter, and write the row terminator and reset the counter
when it reaches zero, otherwise write the field terminator. -/
def Encoder.writeField (e : Encoder) (b : Option Bytes) : Encoder :=
  let wr := bwWrite e.w (escapeField (availBuf e.w) b)
  let e1 : Encoder := { e with w := wr.1, err := wr.2 }
  if e1.err.isSome then e1
  else
    let e2 : Encoder := { e1 with colsLeftInRow := e1.colsLeftInRow - 1 }
    if e2.colsLeftInRow = 0 then
      let wb := bwWriteByte e2.w 10
      { e2 with w := wb.1, err := wb.2, colsLeftInRow := e2.numColumnsPerRow }
    else
      let wb := bwWriteByte e2.w 9
      { e2 with w := wb.1, err := wb.2 }

/-- `Encoder.AppendBytes` (src/mysqltsv.go lines 90-95): a no-op once
an error is latched. -/
def Encoder.AppendBytes (e : Encoder) (b : Option Bytes) : Encoder :=
  if e.err.isSome then e else e.writeField b

/-- `Encoder.AppendString` (src/mysqltsv.go lines 86-88): `[]byte(s)`
of a string is never nil. -/
def Encoder.AppendString (e : Encoder) (s : Bytes) : Encoder :=
  e.AppendBytes (some s)

/-- `Encoder.AppendValue` (src/mysqltsv.go lines 97-107): convert, latch
a conversion error, otherwise write the field. -/
def Encoder.AppendValue (e : Encoder) (v : GoValue) : Encoder :=
  if e.err.isSome then e
  else
    match valueToBytes v e.encoderOptions with
    | .error err => { e with err := some err }
    | .ok b => e.writeField b

/-- `Encoder.Close` (src/mysqltsv.go lines 109-117): return the latched
error untouched, otherwise flush and return the flush outcome.  The
returned pair is (returned error, encoder state afterwards). -/
def Encoder.Close (e : Encoder) : Option GoError × Encoder :=
  if e.err.isSome then (e.err, e)
  else
    let fr := bwFlush e.w
    (fr.2, { e with w := fr.1 })

/-- `Encoder.Error` (src/mysqltsv.go lines 119-121). -/
def Encoder.Error (e : Encoder) : Option GoError :=
  e.err

/-- Appending a sequence of raw fields in order. -/
def appendAll (e : Encoder) (bs : List (Option Bytes)) : Encoder :=
  bs.foldl Encoder.AppendBytes e

/-- The inductive counter invariant: the column budget is positive and
the columns left in the current row lie strictly between zero and the
budget (inclusive above).  It implies the specified invariant `0 ≤ colsLeftInRow ≤
numColumnsPerRow` and is preserved by every operation. -/
def Encoder.CounterInv (e : Encoder) : Prop :=
  0 < e.numColumnsPerRow ∧ 0 < e.colsLeftInRow ∧ e.colsLeftInRow ≤ e.numColumnsPerRow

instance (e : Encoder) : Decidable e.CounterInv := by
  unfold Encoder.CounterInv
  infer_instance

/-- The bytes the encoder emits for a field sequence when every write
succeeds, starting with `c` columns left out of `K` per row: each field
escaped, followed by the row terminator when the counter reaches zero
(resetting it) and by the field terminator otherwise. -/
def expectedOut (K : Int) : Int → List (Option Bytes) → List Nat
  | _, [] => []
  | c, b :: bs =>
      escapeField [] b ++ (if c - 1 = 0 then (10 : Nat) else 9)
        :: expectedOut K (if c - 1 = 0 then K else c - 1) bs

/-- The column counter after a field sequence, all writes
succeeding. -/
def colsAfter (K : Int) : Int → List (Option Bytes) → Int
  | c, [] => c
  | c, _ :: bs => colsAfter K (if c - 1 = 0 then K else c - 1) bs

/-- How many row terminators and how many field terminators the
encoder writes for a field sequence, all writes succeeding. -/
def termCounts (K : Int) : Int → List (Option Bytes) → Nat × Nat
  | _, [] => (0, 0)
  | c, _ :: bs =>
      let p := termCounts K (if c - 1 = 0 then K else c - 1) bs
      if c - 1 = 0 then (p.1 + 1, p.2) else (p.1, p.2 + 1)

/-- No tab byte immediately followed by a newline byte anywhere. -/
def okPairs : List Nat → Bool
  | [] => true
  | a :: rest => (!(a == 9 && rest.head? == some 10)) && okPairs rest

/-- Fields of one row joined by single tab bytes. -/
def joinTabs : List (List Nat) → List Nat
  | [] => []
  | [a] => a
  | a :: b :: rest => a ++ 9 :: joinTabs (b :: rest)

/-- The wire encoding of one row: the escaped fields joined by tabs,
closed by one newline. -/
def rowBytes (r : List (Option Bytes)) : List Nat :=
  joinTabs (r.map (fun b => escapeField [] b)) ++ [10]

theorem escapeField_foldl (d : Bytes) :
    ∀ acc : List Nat, d.foldl (fun acc c => acc ++ escByte c) acc = acc ++ d.flatMap escByte := by
  induction d with
  | nil => intro acc; simp
  | cons c rest ih =>
      intro acc
      simp only [List.foldl_cons, List.flatMap_cons, ih (acc ++ escByte c), List.append_assoc]

theorem escapeField_some (appendTo : List Nat) (d : Bytes) :
    escapeField appendTo (some d) = appendTo ++ [34] ++ d.flatMap escByte ++ [34] := by
  simp [escapeField, escapeField_foldl]

/-- Claim C1: for every non-nil byte sequence the escaper emits one
leading quote byte, then each input byte in order mapped through the
fixed table (0x00, 0x08, 0x0A, 0x0D, 0x09, 0x1A, backslash and quote
become backslash pairs; every other byte is emitted verbatim), then one
trailing quote byte. -/
theorem c1_escape_table (b : Bytes) :
    escapeField [] (some b) = 34 :: b.flatMap escByte ++ [34]
    ∧ escByte 0 = [92, 48] ∧ escByte 8 = [92, 98] ∧ escByte 10 = [92, 110]
    ∧ escByte 13 = [92, 114] ∧ escByte 9 = [92, 116] ∧ escByte 26 = [92, 90]
    ∧ escByte 92 = [92, 92] ∧ escByte 34 = [92, 34]
    ∧ ∀ c : Nat, c ∉ ([0, 8, 10, 13, 9, 26, 92, 34] : List Nat) → escByte c = [c] := by
  refine ⟨by simp [escapeField_some], by decide, by decide, by decide, by decide, by decide,
    by decide, by decide, by decide, ?_⟩
  intro c hc
  simp only [List.mem_cons, List.not_mem_nil, or_false] at hc
  push_neg at hc
  obtain ⟨h0, h8, h10, h13, h9, h26, h92, h34⟩ := hc
  simp [escByte, h0, h8, h10, h13, h9, h26, h92, h34]

theorem c1_escape_table_witness :
    escapeField [] (some [0, 65]) = 34 :: [0, 65].flatMap escByte ++ [34] ∧ escByte 65 = [65] :=
  ⟨(c1_escape_table [0, 65]).1, (c1_escape_table []).2.2.2.2.2.2.2.2.2 65 (by decide)⟩

/-- Claim C2: the escaper maps nil input to exactly the two bytes
backslash-N with no quotes, never produces that output for a non-nil
input, and escapes the empty non-nil sequence to exactly two quote
bytes. -/
theorem c2_null_distinctness :
    (∀ appendTo, escapeField appendTo none = [92, 78])
    ∧ (∀ appendTo b, escapeField appendTo (some b) ≠ [92, 78])
    ∧ escapeField [] (some []) = [34, 34] := by
  refine ⟨fun _ => rfl, ?_, by decide⟩
  intro appendTo b h
  rw [escapeField_some] at h
  have hlast : (appendTo ++ [34] ++ b.flatMap escByte ++ [34]).getLast? = some 34 :=
    List.getLast?_concat _
  rw [h] at hlast
  simp at hlast

theorem c2_null_distinctness_witness :
    escapeField [] none = [92, 78] ∧ escapeField [] (some [0]) ≠ [92, 78]
    ∧ escapeField [] (some []) = [34, 34] :=
  ⟨c2_null_distinctness.1 [], c2_null_distinctness.2.1 [] [0], c2_null_distinctness.2.2⟩

theorem unescBody_cons_ne (c : Nat) (rest : List Nat) (h92 : ¬(c = 92)) :
    unescBody (c :: rest) = c :: unescBody rest := by
  rw [unescBody.eq_def]
  simp [h92]

theorem unescBody_cons_92 (x : Nat) (rest : List Nat) :
    unescBody (92 :: x :: rest) = unescChar x :: unescBody rest := by
  rw [unescBody.eq_def]
  simp

theorem unescBody_escBytes (b : Bytes) : unescBody (b.flatMap escByte) = b := by
  induction b with
  | nil => simp [unescBody]
  | cons c rest ih =>
      rw [List.flatMap_cons]
      by_cases h0 : c = 0
      · subst h0; simpa [escByte, unescBody_cons_92, unescChar] using ih
      · by_cases h8 : c = 8
        · subst h8; simpa [escByte, unescBody_cons_92, unescChar] using ih
        · by_cases h10 : c = 10
          · subst h10; simpa [escByte, unescBody_cons_92, unescChar] using ih
          · by_cases h13 : c = 13
            · subst h13; simpa [escByte, unescBody_cons_92, unescChar] using ih
            · by_cases h9 : c = 9
              · subst h9; simpa [escByte, unescBody_cons_92, unescChar] using ih
              · by_cases h26 : c = 26
                · subst h26; simpa [escByte, unescBody_cons_92, unescChar] using ih
                · by_cases h92 : c = 92
                  · subst h92; simpa [escByte, unescBody_cons_92, unescChar] using ih
                  · by_cases h34 : c = 34
                    · subst h34; simpa [escByte, unescBody_cons_92, unescChar] using ih
                    · rw [show escByte c = [c] by
                        simp [escByte, h0, h8, h10, h13, h9, h26, h92, h34]]
                      rw [List.singleton_append, unescBody_cons_ne c _ h92, ih]

/-- Claim C3: decoding the escaped output of any present byte sequence
with the unescaping of the paired reader yields the input back
byte-for-byte. -/
theorem c3_roundtrip (b : Bytes) :
    unescapeField (escapeField [] (some b)) = .ok (some b) := by
  have hesc : escapeField [] (some b) = 34 :: (b.flatMap escByte ++ [34]) := by
    rw [escapeField_some]
    simp
  rw [hesc]
  have hne : ((34 : Nat) :: (b.flatMap escByte ++ [34]) : List Nat) ≠ [92, 78] := by
    intro h
    have hlast : ((34 : Nat) :: (b.flatMap escByte ++ [34]) : List Nat).getLast? = some 34 := by
      rw [show (34 : Nat) :: (b.flatMap escByte ++ [34]) = (34 :: b.flatMap escByte) ++ [34] by
        simp]
      exact List.getLast?_concat _
    rw [h] at hlast
    simp at hlast
  rw [unescapeField.eq_def, if_neg hne]
  simp [List.getLast?_concat, List.dropLast_concat, unescBody_escBytes]

theorem c3_roundtrip_witness :
    unescapeField (escapeField [] (some [0, 9, 10, 13, 92, 34, 65, 255]))
      = .ok (some [0, 9, 10, 13, 92, 34, 65, 255]) :=
  c3_roundtrip [0, 9, 10, 13, 92, 34, 65, 255]

/-- Claim C5: once an error is latched, every append operation is a
no-op leaving the whole encoder state — sink, counter and latched
error — unchanged, and the error finally reported by Close is that
first latched error. -/
theorem c5_error_latching (e : Encoder) (er : GoError) (h : e.err = some er) :
    (∀ b, e.AppendBytes b = e) ∧ (∀ s, e.AppendString s = e) ∧ (∀ v, e.AppendValue v = e)
    ∧ e.Close = (some er, e) ∧ e.Error = some er := by
  refine ⟨?_, ?_, ?_, ?_, h⟩ <;>
    simp [Encoder.AppendBytes, Encoder.AppendString, Encoder.AppendValue, Encoder.Close,
      Encoder.Error, h]

theorem c5_error_latching_witness :
    ((NewEncoder [] 2 none).AppendValue (.unsupported "chan int")).err
      = some (.conversionError "chan int")
    ∧ ((NewEncoder [] 2 none).AppendValue (.unsupported "chan int")).AppendBytes (some [65])
      = (NewEncoder [] 2 none).AppendValue (.unsupported "chan int") :=
  ⟨by decide,
    (c5_error_latching ((NewEncoder [] 2 none).AppendValue (.unsupported "chan int"))
      (.conversionError "chan int") (by decide)).1 (some [65])⟩

/-- Claim C6: Close returns a latched error immediately without
touching the sink; otherwise it flushes the buffered bytes and returns
the flush outcome to the caller (not latching it). -/
theorem c6_close_semantics (e : Encoder) :
    (∀ er, e.err = some er → e.Close = (some er, e))
    ∧ (e.err = none → e.Close = ((bwFlush e.w).2, { e with w := (bwFlush e.w).1 }))
    ∧ (e.err = none → e.w.failures = [] →
        e.Close = (none,
          { e with w := { buffered := [], flushed := e.w.flushed ++ e.w.buffered,
                          failures := [] } })) := by
  refine ⟨?_, ?_, ?_⟩
  · intro er h
    simp [Encoder.Close, h]
  · intro h
    simp [Encoder.Close, h]
  · intro h hf
    obtain ⟨⟨buf, fl, sched⟩, K, c, err, opt⟩ := e
    simp only at h hf
    subst h hf
    simp [Encoder.Close, bwFlush, popFail]

theorem c6_close_semantics_witness :
    ((NewEncoder [] 2 none).AppendValue (.unsupported "func()")).Close
      = (some (.conversionError "func()"),
         (NewEncoder [] 2 none).AppendValue (.unsupported "func()"))
    ∧ ((NewEncoder [] 1 none).AppendBytes (some [65])).Close
      = (none, { (NewEncoder [] 1 none).AppendBytes (some [65]) with
                  w := { buffered := [],
                         flushed := ((NewEncoder [] 1 none).AppendBytes (some [65])).w.flushed
                           ++ ((NewEncoder [] 1 none).AppendBytes (some [65])).w.buffered,
                         failures := [] } }) :=
  ⟨(c6_close_semantics _).1 (.conversionError "func()") (by decide),
    (c6_close_semantics ((NewEncoder [] 1 none).AppendBytes (some [65]))).2.2 (by decide)
      (by decide)⟩

/-- Claim C8: a `driver.Valuer` is invoked first; its failure is
surfaced as the conversion error (latched with nothing written);
its result is re-dispatched through the type switch exactly once, so
a Valuer returned by a Valuer is rejected as an unsupported type
rather than invoked again. -/
theorem c8_valuer_dispatch (cfg : Option EncoderOptions) :
    (∀ er, valueToBytes (.valuerErr er) cfg = .error er)
    ∧ (∀ v, valueToBytes (.valuerOk v) cfg = typeSwitch cfg v)
    ∧ (∀ v, valueToBytes (.valuerOk (.valuerOk v)) cfg
        = .error (.conversionError "driver.Valuer"))
    ∧ (∀ er, valueToBytes (.valuerOk (.valuerErr er)) cfg
        = .error (.conversionError "driver.Valuer"))
    ∧ (∀ (e : Encoder) er, e.err = none → e.encoderOptions = cfg →
        e.AppendValue (.valuerErr er) = { e with err := some er }) := by
  refine ⟨fun er => rfl, fun v => rfl, fun v => rfl, fun er => rfl, ?_⟩
  intro e er h hcfg
  simp [Encoder.AppendValue, h, valueToBytes]

theorem writeField_counterInv (e : Encoder) (b : Option Bytes) (h : e.CounterInv) :
    (e.writeField b).CounterInv := by
  obtain ⟨hK, hc, hck⟩ := h
  unfold Encoder.writeField
  cases hw : (bwWrite e.w (escapeField (availBuf e.w) b)).2 with
  | some er =>
      simp only [hw, Option.isSome_some, if_true, ite_true]
      exact ⟨hK, hc, hck⟩
  | none =>
      simp only [hw, Option.isSome_none, Bool.false_eq_true, if_false, ite_false]
      by_cases hz : e.colsLeftInRow - 1 = 0
      · simp only [hz, if_true, ite_true]
        exact ⟨hK, hK, le_refl _⟩
      · simp only [hz, if_false, ite_false]
        exact ⟨hK, by simp only []; omega, by simp only []; omega⟩

theorem appendBytes_ok (e : Encoder) (b : Option Bytes)
    (he : e.err = none) (hf : e.w.failures = []) :
    e.AppendBytes b =
      { e with
        w := { e.w with buffered := e.w.buffered ++ escapeField [] b
                ++ [if e.colsLeftInRow - 1 = 0 then (10 : Nat) else 9] }
        err := none
        colsLeftInRow := if e.colsLeftInRow - 1 = 0 then e.numColumnsPerRow
          else e.colsLeftInRow - 1 } := by
  obtain ⟨⟨buf, fl, sched⟩, K, c, err, opt⟩ := e
  simp only at he hf
  subst he hf
  by_cases hz : c - 1 = 0
  · simp [Encoder.AppendBytes, Encoder.writeField, bwWrite, bwWriteByte, popFail, availBuf, hz]
  · simp [Encoder.AppendBytes, Encoder.writeField, bwWrite, bwWriteByte, popFail, availBuf, hz]

theorem appendAll_ok (K : Int) (bs : List (Option Bytes)) :
    ∀ (e : Encoder), e.err = none → e.w.failures = [] → e.numColumnsPerRow = K →
    appendAll e bs =
      { e with
        w := { e.w with buffered := e.w.buffered ++ expectedOut K e.colsLeftInRow bs }
        err := none
        colsLeftInRow := colsAfter K e.colsLeftInRow bs } := by
  induction bs with
  | nil =>
      intro e he hf hK
      obtain ⟨⟨buf, fl, sched⟩, K', c, err, opt⟩ := e
      simp only at he hf
      subst he hf
      simp [appendAll, expectedOut, colsAfter]
  | cons b bs ih =>
      intro e he hf hK
      have hstep := appendBytes_ok e b he hf
      have h1 : appendAll e (b :: bs) = appendAll (e.AppendBytes b) bs := by
        simp [appendAll]
      rw [h1, hstep]
      rw [ih _ rfl (by simp [hf]) (by simp [hK])]
      simp [expectedOut, colsAfter, hK]

theorem escByte_no_sep (c : Nat) : 9 ∉ escByte c ∧ 10 ∉ escByte c := by
  unfold escByte
  split_ifs with h0 h8 h10 h13 h9 h26 h92 h34 <;> first
    | (simp_all; omega)
    | simp_all

theorem escapeField_nil_some (d : Bytes) :
    escapeField [] (some d) = 34 :: (d.flatMap escByte ++ [34]) := by
  rw [escapeField_some]
  simp

theorem escapeField_no_sep (b : Option Bytes) :
    9 ∉ escapeField [] b ∧ 10 ∉ escapeField [] b := by
  cases b with
  | none => refine ⟨?_, ?_⟩ <;> simp [escapeField]
  | some d =>
      rw [escapeField_nil_some]
      refine ⟨?_, ?_⟩ <;>
        · simp only [List.mem_cons, List.mem_append, List.mem_flatMap]
          push_neg
          refine ⟨by omega, fun c _ => ?_, by simp⟩
          · first
            | exact fun hmem => absurd hmem (escByte_no_sep c).1
            | exact fun hmem => absurd hmem (escByte_no_sep c).2

theorem escapeField_head (b : Option Bytes) :
    (escapeField [] b).head? = some 34 ∨ (escapeField [] b).head? = some 92 := by
  cases b with
  | none => right; rfl
  | some d => left; rw [escapeField_nil_some]; rfl

theorem escapeField_ne_nil (b : Option Bytes) : escapeField [] b ≠ [] := by
  cases b with
  | none => simp [escapeField]
  | some d => rw [escapeField_nil_some]; simp

theorem okPairs_append_no9 (A : List Nat) :
    ∀ rest, 9 ∉ A → okPairs rest = true → okPairs (A ++ rest) = true := by
  induction A with
  | nil => intro rest _ h; simpa using h
  | cons a A ih =>
      intro rest hA h
      have ha : ¬(a = 9) := fun h9 => hA (h9 ▸ List.mem_cons_self a A)
      have hA9 : 9 ∉ A := fun hm => hA (List.mem_cons_of_mem a hm)
      simp only [List.cons_append, okPairs, Bool.and_eq_true, Bool.not_eq_true',
        Bool.and_eq_false_iff]
      constructor
      · left
        simpa using ha
      · exact ih rest hA9 h

theorem expectedOut_head_ne (K : Int) (c : Int) (bs : List (Option Bytes)) :
    (expectedOut K c bs).head? ≠ some 10 ∧ (expectedOut K c bs).head? ≠ some 9 := by
  cases bs with
  | nil => simp [expectedOut]
  | cons b bs =>
      have hh := escapeField_head b
      have hne := escapeField_ne_nil b
      rw [show expectedOut K c (b :: bs)
          = escapeField [] b ++ (if c - 1 = 0 then (10 : Nat) else 9)
            :: expectedOut K (if c - 1 = 0 then K else c - 1) bs from rfl]
      rw [List.head?_append]
      rcases hh with hh | hh <;> rw [hh] <;> simp

theorem okPairs_expectedOut (K : Int) (bs : List (Option Bytes)) :
    ∀ c, okPairs (expectedOut K c bs) = true := by
  induction bs with
  | nil => intro c; simp [expectedOut, okPairs]
  | cons b bs ih =>
      intro c
      rw [show expectedOut K c (b :: bs)
          = escapeField [] b ++ (if c - 1 = 0 then (10 : Nat) else 9)
            :: expectedOut K (if c - 1 = 0 then K else c - 1) bs from rfl]
      apply okPairs_append_no9 _ _ (escapeField_no_sep b).1
      by_cases hz : c - 1 = 0
      · simp only [hz, if_true, ite_true, okPairs, Bool.and_eq_true, Bool.not_eq_true']
        exact ⟨by simp, ih K⟩
      · simp only [hz, if_false, ite_false, okPairs, Bool.and_eq_true, Bool.not_eq_true']
        refine ⟨?_, ih (c - 1)⟩
        have := (expectedOut_head_ne K (c - 1) bs).1
        simp only [Bool.and_eq_false_iff]
        right
        simpa using this

theorem joinTabs_cons_cons (a : List Nat) (l : List (List Nat)) (h : l ≠ []) :
    joinTabs (a :: l) = a ++ 9 :: joinTabs l := by
  cases l with
  | nil => exact absurd rfl h
  | cons y ys => rfl

theorem expectedOut_row (K : Int) (r : List (Option Bytes)) :
    ∀ rest, r ≠ [] →
    expectedOut K (r.length : Int) (r ++ rest) = rowBytes r ++ expectedOut K K rest := by
  induction r with
  | nil => intro rest h; exact absurd rfl h
  | cons b r' ih =>
      intro rest _
      cases r' with
      | nil =>
          rw [show expectedOut K ((([b] : List (Option Bytes)).length : Int)) ([b] ++ rest)
              = escapeField [] b ++ (if ((([b] : List (Option Bytes)).length : Int)) - 1 = 0
                  then (10 : Nat) else 9)
                :: expectedOut K (if ((([b] : List (Option Bytes)).length : Int)) - 1 = 0
                  then K else (([b] : List (Option Bytes)).length : Int) - 1) rest from rfl]
          simp [rowBytes, joinTabs]
      | cons b2 r'' =>
          have hlen1 : (((b :: b2 :: r'').length : Nat) : Int) - 1 ≠ 0 := by
            simp only [List.length_cons]
            push_cast
            omega
          have hlen2 : (((b :: b2 :: r'').length : Nat) : Int) - 1
              = (((b2 :: r'').length : Nat) : Int) := by
            simp only [List.length_cons]
            push_cast
            ring
          rw [show (b :: b2 :: r'') ++ rest = b :: ((b2 :: r'') ++ rest) from rfl]
          rw [show expectedOut K (((b :: b2 :: r'').length : Nat) : Int)
                (b :: ((b2 :: r'') ++ rest))
              = escapeField [] b ++ (if (((b :: b2 :: r'').length : Nat) : Int) - 1 = 0
                  then (10 : Nat) else 9)
                :: expectedOut K (if (((b :: b2 :: r'').length : Nat) : Int) - 1 = 0 then K
                  else (((b :: b2 :: r'').length : Nat) : Int) - 1) ((b2 :: r'') ++ rest)
              from rfl]
          rw [if_neg hlen1, if_neg hlen1, hlen2, ih rest (by simp)]
          rw [rowBytes, rowBytes]
          rw [show (b :: b2 :: r'').map (fun x => escapeField [] x)
              = escapeField [] b :: (b2 :: r'').map (fun x => escapeField [] x) from rfl]
          rw [joinTabs_cons_cons _ _ (by simp)]
          simp

theorem expectedOut_rows (k : Nat) (hk : 0 < k) (rows : List (List (Option Bytes)))
    (hlen : ∀ r ∈ rows, r.length = k) :
    expectedOut (k : Int) (k : Int) rows.flatten = (rows.map rowBytes).flatten := by
  induction rows with
  | nil => simp [expectedOut]
  | cons r rows ih =>
      have hr : r.length = k := hlen r (List.mem_cons_self r rows)
      have hrne : r ≠ [] := by
        intro h
        rw [h] at hr
        simp at hr
        omega
      have hrow := expectedOut_row (k : Int) r rows.flatten hrne
      rw [hr] at hrow
      rw [List.flatten_cons, hrow, ih (fun x hx => hlen x (List.mem_cons_of_mem r hx))]
      simp

theorem natDecAux_not_all_48 :
    ∀ (fuel n : Nat), n ≠ 0 → n ≤ fuel → ∃ d ∈ natDecAux fuel n, d ≠ 48 := by
  intro fuel
  induction fuel with
  | zero => intro n hn hle; omega
  | succ f ih =>
      intro n hn hle
      cases n with
      | zero => exact absurd rfl hn
      | succ m =>
          have hunf : natDecAux (f + 1) (m + 1)
              = natDecAux f ((m + 1) / 10) ++ [48 + (m + 1) % 10] := rfl
          by_cases hr : (m + 1) % 10 = 0
          · have h10 : (m + 1) / 10 ≠ 0 := by omega
            have hle2 : (m + 1) / 10 ≤ f := by omega
            obtain ⟨d, hd, hne⟩ := ih _ h10 hle2
            exact ⟨d, by rw [hunf]; exact List.mem_append_left _ hd, hne⟩
          · refine ⟨48 + (m + 1) % 10, ?_, by omega⟩
            rw [hunf]
            exact List.mem_append_right _ (by simp)

theorem natDecimal_not_all_48 (n : Nat) (h : n ≠ 0) : ∃ d ∈ natDecimal n, d ≠ 48 := by
  rw [natDecimal, if_neg h]
  exact natDecAux_not_all_48 n n h (le_refl n)

theorem dropTrailingZeros_ne_nil (l : List Nat) (h : ∃ d ∈ l, d ≠ 48) :
    dropTrailingZeros l ≠ [] := by
  obtain ⟨d, hd, hne⟩ := h
  rw [dropTrailingZeros]
  intro hcon
  rw [List.reverse_eq_nil_iff, List.dropWhile_eq_nil_iff] at hcon
  have := hcon d (List.mem_reverse.mpr hd)
  simp at this
  exact hne this

theorem fmtFrac_nonzero (nsec : Nat) (h : nsec ≠ 0) :
    fmtFrac nsec = 46 :: dropTrailingZeros (padNat 9 nsec)
    ∧ dropTrailingZeros (padNat 9 nsec) ≠ [] := by
  have hne : dropTrailingZeros (padNat 9 nsec) ≠ [] := by
    apply dropTrailingZeros_ne_nil
    obtain ⟨d, hd, hdne⟩ := natDecimal_not_all_48 nsec h
    exact ⟨d, by rw [padNat]; exact List.mem_append_right _ hd, hdne⟩
  exact ⟨by rw [fmtFrac]; simp [hne], hne⟩

theorem natDecAux_length :
    ∀ (fuel n k : Nat), n < 10 ^ k → (natDecAux fuel n).length ≤ k := by
  intro fuel
  induction fuel with
  | zero => intro n k _; simp [natDecAux]
  | succ f ih =>
      intro n k hk
      cases n with
      | zero => simp [natDecAux]
      | succ m =>
          cases k with
          | zero => simp at hk
          | succ j =>
              have hdiv : (m + 1) / 10 < 10 ^ j := by
                rw [Nat.div_lt_iff_lt_mul (by omega)]
                calc m + 1 < 10 ^ (j + 1) := hk
                  _ = 10 ^ j * 10 := by rw [pow_succ]
              have := ih ((m + 1) / 10) j hdiv
              have hunf : natDecAux (f + 1) (m + 1)
                  = natDecAux f ((m + 1) / 10) ++ [48 + (m + 1) % 10] := rfl
              rw [hunf, List.length_append, List.length_singleton]
              omega

theorem fmtFrac_length (nsec : Nat) (h : nsec < 1000000000) :
    (fmtFrac nsec).length ≤ 10 := by
  by_cases h0 : nsec = 0
  · subst h0
    rw [show fmtFrac 0 = [] from by decide]
    simp
  · have hd : (natDecimal nsec).length ≤ 9 := by
      rw [natDecimal, if_neg h0]
      exact natDecAux_length nsec nsec 9 (by norm_num; omega)
    have hpad : (padNat 9 nsec).length ≤ 9 := by
      rw [padNat]
      simp only [List.length_append, List.length_replicate]
      omega
    have htrim : (dropTrailingZeros (padNat 9 nsec)).length ≤ (padNat 9 nsec).length := by
      rw [dropTrailingZeros]
      simp only [List.length_reverse]
      calc ((padNat 9 nsec).reverse.dropWhile (fun d => d == 48)).length
          ≤ (padNat 9 nsec).reverse.length :=
            (List.IsSuffix.sublist (List.dropWhile_suffix _)).length_le
        _ = (padNat 9 nsec).length := List.length_reverse _
    rw [fmtFrac]
    by_cases ht : dropTrailingZeros (padNat 9 nsec) = []
    · simp [ht]
    · simp only [ht, if_false, ite_false, List.length_cons]
      omega

theorem count_joinTabs_no (x : Nat) (L : List (List Nat)) :
    ¬(x = 9) → (∀ l ∈ L, x ∉ l) → (joinTabs L).count x = 0 := by
  induction L with
  | nil => intro _ _; simp [joinTabs]
  | cons a L ih =>
      intro hx hmem
      cases L with
      | nil => simpa [joinTabs] using List.count_eq_zero.mpr (hmem a (by simp))
      | cons b L' =>
          rw [joinTabs_cons_cons _ _ (by simp), List.count_append,
            List.count_eq_zero.mpr (hmem a (by simp)), List.count_cons]
          have hrest := ih hx (fun l hl => hmem l (List.mem_cons_of_mem a hl))
          simp [hrest, beq_iff_eq, Ne.symm hx]

theorem count_joinTabs_9 (L : List (List Nat)) :
    (∀ l ∈ L, 9 ∉ l) → (joinTabs L).count 9 = L.length - 1 := by
  induction L with
  | nil => intro _; simp [joinTabs]
  | cons a L ih =>
      intro hmem
      cases L with
      | nil => simpa [joinTabs] using List.count_eq_zero.mpr (hmem a (by simp))
      | cons b L' =>
          rw [joinTabs_cons_cons _ _ (by simp), List.count_append,
            List.count_eq_zero.mpr (hmem a (by simp)), List.count_cons]
          have hrest := ih (fun l hl => hmem l (List.mem_cons_of_mem a hl))
          simp only [List.length_cons] at hrest ⊢
          simp [hrest]

theorem count_rowBytes (r : List (Option Bytes)) :
    (rowBytes r).count 10 = 1 ∧ (rowBytes r).count 9 = r.length - 1 := by
  have hmem10 : ∀ l ∈ r.map (fun b => escapeField [] b), 10 ∉ l := by
    intro l hl
    obtain ⟨b, _, rfl⟩ := List.mem_map.mp hl
    exact (escapeField_no_sep b).2
  have hmem9 : ∀ l ∈ r.map (fun b => escapeField [] b), 9 ∉ l := by
    intro l hl
    obtain ⟨b, _, rfl⟩ := List.mem_map.mp hl
    exact (escapeField_no_sep b).1
  constructor
  · rw [rowBytes, List.count_append, count_joinTabs_no 10 _ (by omega) hmem10]
    simp
  · rw [rowBytes, List.count_append, count_joinTabs_9 _ hmem9]
    simp

theorem counts_rows_flatten (k : Nat) (rows : List (List (Option Bytes)))
    (hlen : ∀ r ∈ rows, r.length = k) :
    ((rows.map rowBytes).flatten).count 10 = rows.length
    ∧ ((rows.map rowBytes).flatten).count 9 = rows.length * (k - 1) := by
  induction rows with
  | nil => simp
  | cons r rows ih =>
      have hr : r.length = k := hlen r (List.mem_cons_self r rows)
      obtain ⟨ih10, ih9⟩ := ih (fun x hx => hlen x (List.mem_cons_of_mem r hx))
      rw [List.map_cons, List.flatten_cons]
      constructor
      · rw [List.count_append, (count_rowBytes r).1, ih10, List.length_cons]
        omega
      · rw [List.count_append, (count_rowBytes r).2, ih9, List.length_cons, hr]
        ring

theorem rows_flatten_last (rows : List (List (Option Bytes))) (h : rows ≠ []) :
    ((rows.map rowBytes).flatten).getLast? = some 10 := by
  induction rows with
  | nil => exact absurd rfl h
  | cons r rows ih =>
      rw [List.map_cons, List.flatten_cons, List.getLast?_append]
      cases rows with
      | nil =>
          simp [rowBytes]
      | cons r2 rows' =>
          rw [ih (by simp)]
          rfl

theorem joinTabs_head (l : List Nat) (L : List (List Nat)) (h : l ≠ []) :
    (joinTabs (l :: L)).head? = l.head? := by
  cases L with
  | nil => rfl
  | cons y ys =>
      rw [joinTabs_cons_cons _ _ (by simp), List.head?_append]
      cases l with
      | nil => exact absurd rfl h
      | cons a t => rfl

theorem rows_flatten_head (k : Nat) (hk : 0 < k) (rows : List (List (Option Bytes)))
    (hlen : ∀ r ∈ rows, r.length = k) (h : rows ≠ []) :
    ((rows.map rowBytes).flatten).head? = some 34
    ∨ ((rows.map rowBytes).flatten).head? = some 92 := by
  cases rows with
  | nil => exact absurd rfl h
  | cons r rows =>
      have hr : r.length = k := hlen r (List.mem_cons_self r rows)
      cases r with
      | nil => rw [List.length_nil] at hr; omega
      | cons b r' =>
          rw [List.map_cons, List.flatten_cons, List.head?_append, rowBytes, List.map_cons,
            List.head?_append, joinTabs_head _ _ (escapeField_ne_nil b)]
          rcases escapeField_head b with hh | hh <;> rw [hh] <;> simp

theorem colsAfter_row (K : Int) (r : List (Option Bytes)) :
    ∀ rest, r ≠ [] → colsAfter K (r.length : Int) (r ++ rest) = colsAfter K K rest := by
  induction r with
  | nil => intro rest h; exact absurd rfl h
  | cons b r' ih =>
      intro rest _
      cases r' with
      | nil =>
          rw [show colsAfter K ((([b] : List (Option Bytes)).length : Int)) ([b] ++ rest)
              = colsAfter K (if ((([b] : List (Option Bytes)).length : Int)) - 1 = 0 then K
                  else (([b] : List (Option Bytes)).length : Int) - 1) rest from rfl]
          simp
      | cons b2 r'' =>
          have hlen1 : (((b :: b2 :: r'').length : Nat) : Int) - 1 ≠ 0 := by
            simp only [List.length_cons]
            push_cast
            omega
          have hlen2 : (((b :: b2 :: r'').length : Nat) : Int) - 1
              = (((b2 :: r'').length : Nat) : Int) := by
            simp only [List.length_cons]
            push_cast
            ring
          rw [show (b :: b2 :: r'') ++ rest = b :: ((b2 :: r'') ++ rest) from rfl]
          rw [show colsAfter K (((b :: b2 :: r'').length : Nat) : Int) (b :: ((b2 :: r'') ++ rest))
              = colsAfter K (if (((b :: b2 :: r'').length : Nat) : Int) - 1 = 0 then K
                  else (((b :: b2 :: r'').length : Nat) : Int) - 1) ((b2 :: r'') ++ rest)
              from rfl]
          rw [if_neg hlen1, hlen2, ih rest (by simp)]

theorem colsAfter_rows (k : Nat) (hk : 0 < k) (rows : List (List (Option Bytes)))
    (hlen : ∀ r ∈ rows, r.length = k) :
    colsAfter (k : Int) (k : Int) rows.flatten = (k : Int) := by
  induction rows with
  | nil => rfl
  | cons r rows ih =>
      have hr : r.length = k := hlen r (List.mem_cons_self r rows)
      have hrne : r ≠ [] := by
        intro h
        rw [h] at hr
        simp at hr
        omega
      have hrow := colsAfter_row (k : Int) r rows.flatten hrne
      rw [hr] at hrow
      rw [List.flatten_cons, hrow, ih (fun x hx => hlen x (List.mem_cons_of_mem r hx))]

/-- Claim C4: after each successful field write the counter is
decremented, and a single newline is written with the counter reset to
columns-per-row when it reaches zero, a single tab otherwise (final
conjunct); hence appending N complete rows of exactly columns-per-row
fields to a fresh encoder, every write succeeding, produces exactly
the escaped fields of the rows joined by single tabs, each row closed
by a single newline: N newline row terminators, k*N - N tab field
terminators, no tab immediately before a newline, the stream ends with
the final row terminator and starts with a field byte (a quote or the
backslash of the NULL marker), not a terminator; the counter is back
at columns-per-row afterwards. -/
theorem c4_row_framing (k : Nat) (rows : List (List (Option Bytes)))
    (hk : 0 < k) (hlen : ∀ r ∈ rows, r.length = k) :
    (appendAll (NewEncoder [] (k : Int) none) rows.flatten).w.buffered
        = (rows.map rowBytes).flatten
    ∧ (appendAll (NewEncoder [] (k : Int) none) rows.flatten).err = none
    ∧ (appendAll (NewEncoder [] (k : Int) none) rows.flatten).colsLeftInRow = (k : Int)
    ∧ ((rows.map rowBytes).flatten).count 10 = rows.length
    ∧ ((rows.map rowBytes).flatten).count 9 = k * rows.length - rows.length
    ∧ okPairs ((rows.map rowBytes).flatten) = true
    ∧ (rows ≠ [] → ((rows.map rowBytes).flatten).getLast? = some 10)
    ∧ (rows ≠ [] → ((rows.map rowBytes).flatten).head? = some 34
        ∨ ((rows.map rowBytes).flatten).head? = some 92)
    ∧ (∀ (e : Encoder) b, e.err = none → e.w.failures = [] →
        e.AppendBytes b =
          { e with
            w := { e.w with buffered := e.w.buffered ++ escapeField [] b
                    ++ [if e.colsLeftInRow - 1 = 0 then (10 : Nat) else 9] }
            err := none
            colsLeftInRow := if e.colsLeftInRow - 1 = 0 then e.numColumnsPerRow
              else e.colsLeftInRow - 1 }) := by
  have hall := appendAll_ok (k : Int) rows.flatten (NewEncoder [] (k : Int) none) rfl rfl rfl
  have hbridge := expectedOut_rows k hk rows hlen
  have hcounts := counts_rows_flatten k rows hlen
  refine ⟨?_, ?_, ?_, hcounts.1, ?_, ?_, rows_flatten_last rows, rows_flatten_head k hk rows hlen,
    fun e b he hf => appendBytes_ok e b he hf⟩
  · rw [hall]
    simp only [NewEncoder]
    rw [← hbridge]
    simp
  · rw [hall]
  · rw [hall]
    simp only [NewEncoder]
    exact colsAfter_rows k hk rows hlen
  · rw [hcounts.2]
    cases k with
    | zero => omega
    | succ j =>
        rw [Nat.succ_sub_one, Nat.succ_mul, Nat.mul_comm]
        omega
  · rw [← hbridge]
    exact okPairs_expectedOut (k : Int) rows.flatten (k : Int)

theorem c4_row_framing_witness :
    (appendAll (NewEncoder [] (2 : Int) none)
        ([[some [65], none], [some [9], some []]] : List (List (Option Bytes))).flatten).w.buffered
      = (([[some [65], none], [some [9], some []]] : List (List (Option Bytes))).map
          rowBytes).flatten
    ∧ ((([[some [65], none], [some [9], some []]] : List (List (Option Bytes))).map
          rowBytes).flatten).count 10 = 2 :=
  ⟨(c4_row_framing 2 [[some [65], none], [some [9], some []]] (by decide) (by decide)).1,
    (c4_row_framing 2 [[some [65], none], [some [9], some []]] (by decide)
      (by decide)).2.2.2.1⟩

theorem count_expectedOut (K : Int) (bs : List (Option Bytes)) :
    ∀ c, (expectedOut K c bs).count 10 = (termCounts K c bs).1
    ∧ (expectedOut K c bs).count 9 = (termCounts K c bs).2 := by
  induction bs with
  | nil => intro c; simp [expectedOut, termCounts]
  | cons b bs ih =>
      intro c
      rw [show expectedOut K c (b :: bs)
          = escapeField [] b ++ (if c - 1 = 0 then (10 : Nat) else 9)
            :: expectedOut K (if c - 1 = 0 then K else c - 1) bs from rfl]
      rw [show termCounts K c (b :: bs)
          = (if c - 1 = 0
              then ((termCounts K (if c - 1 = 0 then K else c - 1) bs).1 + 1,
                    (termCounts K (if c - 1 = 0 then K else c - 1) bs).2)
              else ((termCounts K (if c - 1 = 0 then K else c - 1) bs).1,
                    (termCounts K (if c - 1 = 0 then K else c - 1) bs).2 + 1)) from rfl]
      have h10 := List.count_eq_zero.mpr (escapeField_no_sep b).2
      have h9 := List.count_eq_zero.mpr (escapeField_no_sep b).1
      by_cases hz : c - 1 = 0
      · simp only [hz, if_true, ite_true]
        constructor
        · rw [List.count_append, h10, List.count_cons, (ih K).1]
          simp
        · rw [List.count_append, h9, List.count_cons, (ih K).2]
          simp
      · simp only [hz, if_false, ite_false]
        constructor
        · rw [List.count_append, h10, List.count_cons, (ih (c - 1)).1]
          simp
        · rw [List.count_append, h9, List.count_cons, (ih (c - 1)).2]
          simp

/-- Claim C10: no escaped field contains a raw tab or raw newline
byte (both are rewritten to backslash pairs and no pair reintroduces
them), so in the encoder's output stream, for any field sequence with
every write succeeding, the number of raw newline bytes equals the
number of row terminators written and the number of raw tab bytes
equals the number of field terminators written: every raw tab is a
field terminator and every raw newline a row terminator. -/
theorem c10_no_raw_terminators :
    (∀ b : Bytes, 9 ∉ escapeField [] (some b) ∧ 10 ∉ escapeField [] (some b))
    ∧ (∀ (k : Nat) (bs : List (Option Bytes)),
        (appendAll (NewEncoder [] (k : Int) none) bs).w.buffered
          = expectedOut (k : Int) (k : Int) bs
        ∧ ((appendAll (NewEncoder [] (k : Int) none) bs).w.buffered).count 10
          = (termCounts (k : Int) (k : Int) bs).1
        ∧ ((appendAll (NewEncoder [] (k : Int) none) bs).w.buffered).count 9
          = (termCounts (k : Int) (k : Int) bs).2) := by
  constructor
  · exact fun b => escapeField_no_sep (some b)
  · intro k bs
    have hall := appendAll_ok (k : Int) bs (NewEncoder [] (k : Int) none) rfl rfl rfl
    have hbuf : (appendAll (NewEncoder [] (k : Int) none) bs).w.buffered
        = expectedOut (k : Int) (k : Int) bs := by
      rw [hall]
      simp [NewEncoder]
    exact ⟨hbuf, by rw [hbuf]; exact (count_expectedOut (k : Int) bs (k : Int)).1,
      by rw [hbuf]; exact (count_expectedOut (k : Int) bs (k : Int)).2⟩

theorem c10_no_raw_terminators_witness :
    (9 ∉ escapeField [] (some [9, 10]) ∧ 10 ∉ escapeField [] (some [9, 10]))
    ∧ ((appendAll (NewEncoder [] (2 : Int) none) [some [9, 10], none]).w.buffered).count 10
      = (termCounts (2 : Int) (2 : Int) [some [9, 10], none]).1 :=
  ⟨c10_no_raw_terminators.1 [9, 10],
    (c10_no_raw_terminators.2 2 [some [9, 10], none]).2.1⟩

/-- Claim C9: for an encoder built with a positive column count the
counter invariant `0 ≤ colsLeftInRow ≤ numColumnsPerRow` (strengthened
to strict positivity, which the construction establishes) holds at
construction and is preserved by every append, by Close and by the
error query, on success and on every error path (any write-outcome
schedule, any input). -/
theorem c9_counter_invariant :
    (∀ fs n cfg, 0 < n → (NewEncoder fs n cfg).CounterInv)
    ∧ (∀ (e : Encoder) b, e.CounterInv → (e.AppendBytes b).CounterInv)
    ∧ (∀ (e : Encoder) s, e.CounterInv → (e.AppendString s).CounterInv)
    ∧ (∀ (e : Encoder) v, e.CounterInv → (e.AppendValue v).CounterInv)
    ∧ (∀ (e : Encoder), e.CounterInv → (e.Close).2.CounterInv)
    ∧ (∀ (e : Encoder), e.CounterInv → (e.Error = e.err ∧ e.CounterInv))
    ∧ (∀ (e : Encoder), e.CounterInv →
        0 ≤ e.colsLeftInRow ∧ e.colsLeftInRow ≤ e.numColumnsPerRow) := by
  refine ⟨?_, ?_, ?_, ?_, ?_, ?_, ?_⟩
  · intro fs n cfg hn
    exact ⟨hn, hn, le_refl _⟩
  · intro e b h
    unfold Encoder.AppendBytes
    by_cases he : e.err.isSome
    · simpa [he] using h
    · simpa [he] using writeField_counterInv e b h
  · intro e s h
    unfold Encoder.AppendString Encoder.AppendBytes
    by_cases he : e.err.isSome
    · simpa [he] using h
    · simpa [he] using writeField_counterInv e (some s) h
  · intro e v h
    unfold Encoder.AppendValue
    by_cases he : e.err.isSome
    · simpa [he] using h
    · simp only [he, Bool.false_eq_true, if_false, ite_false]
      cases hv : valueToBytes v e.encoderOptions with
      | error er => exact ⟨h.1, h.2.1, h.2.2⟩
      | ok b => exact writeField_counterInv e b h
  · intro e h
    unfold Encoder.Close
    by_cases he : e.err.isSome
    · simpa [he] using h
    · simpa [he] using ⟨h.1, h.2.1, h.2.2⟩
  · exact fun e h => ⟨rfl, h⟩
  · intro e h
    exact ⟨le_of_lt h.2.1, h.2.2⟩

theorem fmtDate_epoch_eval : fmtDate ⟨86400, 0, 0⟩ = [49, 57, 55, 48, 45, 48, 49, 45, 48, 50] := by
  decide

theorem fmtDateTime_eval :
    fmtDateTime ⟨3723, 0, 0⟩
      = [49, 57, 55, 48, 45, 48, 49, 45, 48, 49, 32, 48, 49, 58, 48, 50, 58, 48, 51] := by
  decide

/-- Claim C7: a date/time value is first converted into the configured
zone when one is configured (kept in its own zone otherwise), and only
then is the layout chosen from the converted wall-clock fields: all of
hour, minute, second and sub-second zero gives the date-only layout;
zero sub-second gives date plus clock; a nonzero sub-second appends a
nonempty fractional suffix of a dot and at most nine digits, emitted
only because the sub-second is nonzero. -/
theorem c7_time_formatting (cfg : Option EncoderOptions) (t : GoTime) :
    valueToBytes (.time t) cfg = .ok (some (timeBytes cfg t))
    ∧ timeBytes cfg t = timeBytes none (applyLocation cfg t)
    ∧ ((applyLocation cfg t).clock = (0, 0, 0) ∧ (applyLocation cfg t).nsec = 0 →
        timeBytes cfg t = fmtDate (applyLocation cfg t))
    ∧ (¬((applyLocation cfg t).clock = (0, 0, 0) ∧ (applyLocation cfg t).nsec = 0) →
        (applyLocation cfg t).nsec = 0 →
        timeBytes cfg t = fmtDateTime (applyLocation cfg t))
    ∧ ((applyLocation cfg t).nsec ≠ 0 →
        timeBytes cfg t = fmtDateTime (applyLocation cfg t)
            ++ 46 :: dropTrailingZeros (padNat 9 (applyLocation cfg t).nsec)
        ∧ dropTrailingZeros (padNat 9 (applyLocation cfg t).nsec) ≠ [])
    ∧ ((applyLocation cfg t).nsec ≠ 0 → (applyLocation cfg t).nsec < 1000000000 →
        (fmtFrac (applyLocation cfg t).nsec).length ≤ 10) := by
  have hsel : ∀ u : GoTime, timeBytes none u
      = (if u.clock.1 = 0 ∧ u.clock.2.1 = 0 ∧ u.clock.2.2 = 0 ∧ u.nsec = 0
          then fmtDate u
          else if u.nsec = 0 then fmtDateTime u
          else fmtDateTime u ++ fmtFrac u.nsec) := fun u => rfl
  have hconv : timeBytes cfg t = timeBytes none (applyLocation cfg t) := by
    cases cfg with
    | none => rfl
    | some c =>
        cases hc : c.Location with
        | none => simp [timeBytes, applyLocation, hc]
        | some off => simp [timeBytes, applyLocation, hc]
  refine ⟨rfl, hconv, ?_, ?_, ?_, ?_⟩
  · intro ⟨hclk, hns⟩
    rw [hconv, hsel]
    have h1 : (applyLocation cfg t).clock.1 = 0 := by rw [hclk]
    have h2 : (applyLocation cfg t).clock.2.1 = 0 := by rw [hclk]
    have h3 : (applyLocation cfg t).clock.2.2 = 0 := by rw [hclk]
    rw [if_pos ⟨h1, h2, h3, hns⟩]
  · intro hne hns
    rw [hconv, hsel]
    have hcond : ¬((applyLocation cfg t).clock.1 = 0 ∧ (applyLocation cfg t).clock.2.1 = 0
        ∧ (applyLocation cfg t).clock.2.2 = 0 ∧ (applyLocation cfg t).nsec = 0) := by
      intro ⟨h1, h2, h3, h4⟩
      exact hne ⟨by
        have : (applyLocation cfg t).clock
            = ((applyLocation cfg t).clock.1, (applyLocation cfg t).clock.2.1,
                (applyLocation cfg t).clock.2.2) := rfl
        rw [this, h1, h2, h3], h4⟩
    rw [if_neg hcond, if_pos hns]
  · intro hns
    have hfrac := fmtFrac_nonzero (applyLocation cfg t).nsec hns
    have hcond : ¬((applyLocation cfg t).clock.1 = 0 ∧ (applyLocation cfg t).clock.2.1 = 0
        ∧ (applyLocation cfg t).clock.2.2 = 0 ∧ (applyLocation cfg t).nsec = 0) := by
      intro ⟨_, _, _, h4⟩
      exact hns h4
    refine ⟨?_, hfrac.2⟩
    rw [hconv, hsel, if_neg hcond, if_neg hns, hfrac.1]
  · intro hns hbound
    exact fmtFrac_length _ hbound

theorem c7_time_formatting_witness :
    valueToBytes (.time ⟨0, 5, 0⟩) (some ⟨some 3600⟩)
      = .ok (some (timeBytes (some ⟨some 3600⟩) ⟨0, 5, 0⟩))
    ∧ timeBytes (some ⟨some 3600⟩) ⟨0, 5, 0⟩
      = fmtDateTime (applyLocation (some ⟨some 3600⟩) ⟨0, 5, 0⟩)
          ++ 46 :: dropTrailingZeros (padNat 9 (applyLocation (some ⟨some 3600⟩) ⟨0, 5, 0⟩).nsec)
    ∧ dropTrailingZeros (padNat 9 (applyLocation (some ⟨some 3600⟩) ⟨0, 5, 0⟩).nsec) ≠ []
    ∧ (fmtFrac (applyLocation (some ⟨some 3600⟩) ⟨0, 5, 0⟩).nsec).length ≤ 10
    ∧ timeBytes none ⟨86400, 0, 0⟩ = fmtDate (applyLocation none ⟨86400, 0, 0⟩) :=
  ⟨(c7_time_formatting (some ⟨some 3600⟩) ⟨0, 5, 0⟩).1,
    ((c7_time_formatting (some ⟨some 3600⟩) ⟨0, 5, 0⟩).2.2.2.2.1 (by decide)).1,
    ((c7_time_formatting (some ⟨some 3600⟩) ⟨0, 5, 0⟩).2.2.2.2.1 (by decide)).2,
    (c7_time_formatting (some ⟨some 3600⟩) ⟨0, 5, 0⟩).2.2.2.2.2 (by decide) (by decide),
    (c7_time_formatting none ⟨86400, 0, 0⟩).2.2.1 (by decide)⟩

theorem c9_counter_invariant_witness :
    (0 : Int) < 3 ∧ (NewEncoder [true] 3 none).CounterInv
    ∧ ((NewEncoder [true] 3 none).AppendBytes (some [65])).CounterInv :=
  ⟨by decide, c9_counter_invariant.1 [true] 3 none (by decide),
    c9_counter_invariant.2.1 (NewEncoder [true] 3 none) (some [65])
      (c9_counter_invariant.1 [true] 3 none (by decide))⟩

theorem c8_valuer_dispatch_witness :
    valueToBytes (.valuerOk (.boolean true)) none = .ok (some [49])
    ∧ (NewEncoder [] 2 none).AppendValue (.valuerErr .sinkError)
      = { NewEncoder [] 2 none with err := some .sinkError } :=
  ⟨((c8_valuer_dispatch none).2.1 (.boolean true)).trans rfl,
    (c8_valuer_dispatch none).2.2.2.2 (NewEncoder [] 2 none) .sinkError (by decide) (by decide)⟩
